import Mathlib

/-!
Shallow embedding of the memoleak note-taking tool (src/main.rs) and proofs
about its key-sequence matcher, key translator, memo cache and memo stash.

Modelling conventions:
* Rust `u64` arithmetic is `Nat` with explicit reduction `% 2 ^ 64`.
* A backing file on disk is an `Option String`: `some c` is a readable file
  whose whole content is `c`, `none` is a file that cannot be read.  The
  claims about `refresh` assume the content is stable during the call, which
  this pure model makes exact.
* `viks::Key` is the canonical token string produced by `translate_to_key`
  (per the design, Keys are produced only by the Key Translator), so `Key`
  is `String` here and `viks::Key::new` succeeds on every produced token.
* A Rust panic (process abort) is modelled by an explicit result constructor,
  never by an error value, so "recoverable error" and "abort" stay distinct.
-/

namespace Memoleak

/-- 64-bit wrap-around, `x mod 2^64`. -/
def wrap64 (x : Nat) : Nat := x % 2 ^ 64

/-- 64-bit rotate left by `b` bits (0 < b < 64 in all uses). -/
def rotl64 (x b : Nat) : Nat := wrap64 ((x <<< b) ||| (x >>> (64 - b)))

/-- The four 64-bit state words of a SipHash hasher. -/
structure SipState where
  v0 : Nat
  v1 : Nat
  v2 : Nat
  v3 : Nat
deriving Repr, DecidableEq

/-- One SipRound, as in the SipHash reference and Rust's `std` SipHasher13. -/
def sipRound (s : SipState) : SipState :=
  let v0 := wrap64 (s.v0 + s.v1)
  let v1 := rotl64 s.v1 13
  let v1 := v1 ^^^ v0
  let v0 := rotl64 v0 32
  let v2 := wrap64 (s.v2 + s.v3)
  let v3 := rotl64 s.v3 16
  let v3 := v3 ^^^ v2
  let v0 := wrap64 (v0 + v3)
  let v3 := rotl64 v3 21
  let v3 := v3 ^^^ v0
  let v2 := wrap64 (v2 + v1)
  let v1 := rotl64 v1 17
  let v1 := v1 ^^^ v2
  let v2 := rotl64 v2 32
  ⟨v0, v1, v2, v3⟩

/-- Compress one 8-byte little-endian word with one c-round (SipHash-1-3). -/
def sipCompress (s : SipState) (m : Nat) : SipState :=
  let s := { s with v3 := s.v3 ^^^ m }
  let s := sipRound s
  { s with v0 := s.v0 ^^^ m }

/-- Split a byte list into full 8-byte little-endian words. -/
def leWords : List Nat → List Nat
  | b0 :: b1 :: b2 :: b3 :: b4 :: b5 :: b6 :: b7 :: rest =>
      (b0 + b1 <<< 8 + b2 <<< 16 + b3 <<< 24 + b4 <<< 32 + b5 <<< 40 +
        b6 <<< 48 + b7 <<< 56) :: leWords rest
  | _ => []

/-- The trailing bytes (fewer than 8) of a byte list, as a little-endian word. -/
def leTail (bs : List Nat) : Nat :=
  (bs.drop (8 * (bs.length / 8))).foldr (fun b acc => acc <<< 8 + b) 0

/--
SipHash-1-3 of a byte list under keys `k0, k1`: exactly the algorithm of
Rust's `std::hash::SipHasher13`, which backs
`std::collections::hash_map::DefaultHasher` with `k0 = k1 = 0`.
-/
def sipHash13 (k0 k1 : Nat) (data : List Nat) : Nat :=
  let s : SipState :=
    ⟨k0 ^^^ 0x736f6d6570736575, k1 ^^^ 0x646f72616e646f6d,
     k0 ^^^ 0x6c7967656e657261, k1 ^^^ 0x7465646279746573⟩
  let s := (leWords data).foldl sipCompress s
  let b := (data.length % 256) <<< 56 ||| leTail data
  let s := sipCompress s b
  let s := { s with v2 := s.v2 ^^^ 0xff }
  let s := sipRound (sipRound (sipRound s))
  s.v0 ^^^ s.v1 ^^^ s.v2 ^^^ s.v3

/-- UTF-8 encoding of one Unicode scalar value, as bytes. -/
def utf8Bytes (c : Nat) : List Nat :=
  if c < 0x80 then [c]
  else if c < 0x800 then
    [0xC0 ||| (c >>> 6), 0x80 ||| (c &&& 0x3F)]
  else if c < 0x10000 then
    [0xE0 ||| (c >>> 12), 0x80 ||| ((c >>> 6) &&& 0x3F), 0x80 ||| (c &&& 0x3F)]
  else
    [0xF0 ||| (c >>> 18), 0x80 ||| ((c >>> 12) &&& 0x3F),
     0x80 ||| ((c >>> 6) &&& 0x3F), 0x80 ||| (c &&& 0x3F)]

/-- UTF-8 bytes of a string, as `Nat`s (what `str::as_bytes` exposes). -/
def strBytes (s : String) : List Nat :=
  s.data.foldr (fun c acc => utf8Bytes c.toNat ++ acc) []

/--
The hash Rust computes for a `String` with `DefaultHasher`: `Hash for str`
feeds the UTF-8 bytes followed by a single `0xff` terminator byte into
SipHash-1-3 with both keys zero, and `finish` returns the 64-bit digest.
This is the digest function of `Memo::create_latest_hash`.
-/
def defaultHashString (s : String) : Nat := sipHash13 0 0 (strBytes s ++ [0xff])

/-- The error type of src/main.rs: a single descriptive message string. -/
structure Error where
  msg : String
deriving Repr, DecidableEq

/-- `Error::new`. -/
def Error.mk' (s : String) : Error := ⟨s⟩

/-- `Error::with_cause`: formats `"{desc}: {cause}"`. -/
def Error.with_cause (desc cause : String) : Error := ⟨desc ++ ": " ++ cause⟩

/-- `Memo`: path identity, cached content buffer, cached content digest. -/
structure Memo where
  original_path : String
  content_buffer : String
  content_hash : Nat
deriving Repr, DecidableEq

/--
`Memo::new`: empty buffer and the hard-coded constant `3476900567878811119`,
annotated in the source as the `String::new` hash.
-/
def Memo.new (original_path : String) : Memo :=
  { original_path := original_path
    content_buffer := ""
    content_hash := 3476900567878811119 }

/--
`Memo::read_latest_content`: `fs::read_to_string` of the backing file.  The
file is `some content` when readable; an unreadable file (`none`) yields the
error `with_cause` builds from the path, its io `ErrorKind` abstracted as
the string `"io error"`.
-/
def Memo.read_latest_content (m : Memo) (file : Option String) :
    Except Error String :=
  match file with
  | some s => .ok s
  | none =>
      .error (Error.with_cause ("A file '" ++ m.original_path ++ "' reading failed")
        "io error")

/-- `Memo::create_latest_hash`: read the file and hash the content read. -/
def Memo.create_latest_hash (m : Memo) (file : Option String) :
    Except Error Nat :=
  match m.read_latest_content file with
  | .ok c => .ok (defaultHashString c)
  | .error e => .error e

/--
`Memo::eq_origin`: `Some(self.content_hash) == self.create_latest_hash().ok()`.
A read failure makes the right side `none`, so the comparison is `false`.
-/
def Memo.eq_origin (m : Memo) (file : Option String) : Bool :=
  some m.content_hash == (m.create_latest_hash file).toOption

/--
`Memo::refresh`: if the cached digest does not match the file, re-read the
content into the buffer and recompute the digest (a second read), with `?`
propagating either read error.
-/
def Memo.refresh (m : Memo) (file : Option String) : Except Error Memo :=
  if !(m.eq_origin file) then
    match m.read_latest_content file with
    | .error e => .error e
    | .ok c =>
        match m.create_latest_hash file with
        | .error e => .error e
        | .ok h => .ok { m with content_buffer := c, content_hash := h }
  else
    .ok m

/-- `Stash`: the ordered collection of loaded Memos, a growable vector. -/
structure Stash where
  stash : List Memo
deriving Repr, DecidableEq

/-- `Stash::new`. -/
def Stash.new : Stash := ⟨[]⟩

/-- `Stash::push`: `Vec::push`, appends at the end. -/
def Stash.push (s : Stash) (memo : Memo) : Stash := ⟨s.stash ++ [memo]⟩

/-- Outcome of `Vec::remove`: either the vector after removal, or a panic
(process abort) when the index is out of bounds.  The panic is not an
`Error` value — `Stash::remove` returns `()` in the source and has no error
channel at all. -/
inductive VecRemove (α : Type) where
  | ok : List α → VecRemove α
  | outOfBoundsAbort : VecRemove α
deriving Repr, DecidableEq

/--
`Stash::remove`: delegates directly to `Vec::remove(idx)`, which removes the
element at `idx` shifting later elements left, and panics (aborts) when
`idx >= len`.
-/
def Stash.remove (s : Stash) (idx : Nat) : VecRemove Memo :=
  if idx < s.stash.length then .ok (s.stash.eraseIdx idx)
  else .outOfBoundsAbort

/-- The `Order` enum: the closed enumeration of application commands. -/
inductive Order where
  | Exit : Order
deriving Repr, DecidableEq

/-- The relevant variants of crossterm's `KeyCode` enum.  `translate_to_key`
maps `Backspace`, `Tab`, `Enter`, `Esc`, `Delete` and the listed `Char`s and
sends every other variant to `None` through its wildcard arm. -/
inductive KeyCode where
  | Backspace | Enter | Left | Right | Up | Down | Home | End
  | PageUp | PageDown | Tab | BackTab | Delete | Insert
  | F : Nat → KeyCode
  | Char : Char → KeyCode
  | Null | Esc | CapsLock | ScrollLock | NumLock | PrintScreen
  | Pause | Menu | KeypadBegin
deriving Repr, DecidableEq

/-- crossterm `KeyModifiers` as the three flags the program inspects
(`contains(SHIFT)`, `contains(ALT)`, `contains(CONTROL)`). -/
structure KeyModifiers where
  shift : Bool
  control : Bool
  alt : Bool
deriving Repr, DecidableEq

/-- No modifier pressed. -/
def KeyModifiers.none : KeyModifiers := ⟨false, false, false⟩

/-- crossterm `KeyEvent`: key code plus modifier set. -/
structure KeyEvent where
  code : KeyCode
  modifiers : KeyModifiers
deriving Repr, DecidableEq

/-- A `viks::Key` is its canonical token string (see module conventions). -/
abbrev Key := String

/--
The `KeyCode::Char` arms of the big `match` in `translate_to_key`, folded by
their pattern: the arms enumerate every character from `'!'` to `'~'`
(printable ASCII except space) each mapped to itself, except
`KeyCode::Char(' ') => "SPACE"` and `KeyCode::Char('<') => "lt"`; any other
character falls to the wildcard arm (`None`).
-/
def charToken (c : Char) : Option String :=
  if c = ' ' then some "SPACE"
  else if c = '<' then some "lt"
  else if 0x21 ≤ c.toNat ∧ c.toNat ≤ 0x7e then some (String.singleton c)
  else none

/-- The full `match key.code` of `translate_to_key`: named control keys,
the `Char` arms (via `charToken`), and the wildcard arm returning `None`. -/
def baseToken : KeyCode → Option String
  | .Backspace => some "BS"
  | .Tab => some "TAB"
  | .Enter => some "ENTER"
  | .Esc => some "ESC"
  | .Char c => charToken c
  | .Delete => some "DEL"
  | _ => none

/-- `key_str.len() == 1 && matches!(key_str.chars().next(), Some('A'..='Z'))`. -/
def isBigAlpha (s : String) : Bool :=
  s.length == 1 &&
    (match s.data.head? with
     | some c => decide ('A' ≤ c) && decide (c ≤ 'Z')
     | none => false)

/-- The modifier-prefix chain of `translate_to_key`: shift (unless the base
token is an uppercase letter), else alt, else control, else bare. -/
def applyModifier (mods : KeyModifiers) (s : String) : String :=
  if !(isBigAlpha s) && mods.shift then "s-" ++ s
  else if mods.alt then "a-" ++ s
  else if mods.control then "c-" ++ s
  else s

/-- The final bracketing step: wrap multi-character tokens in `<`/`>`. -/
def bracketToken (s : String) : String :=
  if s.length > 1 then "<" ++ s ++ ">" else s

/--
`translate_to_key`: base token from the key code, one modifier prefix at
most, bracketing of multi-character tokens, and `viks::Key::new(..).ok()`
(which succeeds on every token this function builds, so it is `some`).
-/
def translate_to_key (key : KeyEvent) : Option Key :=
  match baseToken key.code with
  | none => none
  | some s => some (bracketToken (applyModifier key.modifiers s))

/--
Exact lookup in the binding table (`maps.get(&keymap)` on the
`HashMap<Keymap, Order>`): the value of the entry whose keymap equals `km`.
The table is an association list whose keymaps are pairwise distinct (the
`HashMap` invariant); a `Keymap` is its list of Keys (`Keymap::as_vec`).
The value type is a parameter: the loop only copies the stored `Order` out,
never inspects it.
-/
def lookupMap {α : Type} (maps : List (List Key × α)) (km : List Key) : Option α :=
  (maps.find? (fun e => e.1 == km)).map (fun e => e.2)

/--
One iteration of the matcher loop in `setup_tui`, for iterations that
received a key: push the key onto the pool, try an exact match (emit and
clear on success), otherwise keep the pool exactly when some strictly longer
bound keymap starts with it (`key.len() > pool.len()` and
`key[..pool.len()] == pool`), otherwise clear the pool.  Returns the new
pool and the emitted order, if any.
-/
def matcherStep {α : Type} (maps : List (List Key × α)) (pool : List Key)
    (k : Key) : List Key × Option α :=
  let pool := pool ++ [k]
  match lookupMap maps pool with
  | some matched => ([], some matched)
  | none =>
      if maps.any (fun e =>
          decide (pool.length < e.1.length) && (e.1.take pool.length == pool)) then
        (pool, none)
      else
        ([], none)

/--
The matcher run on a list of received keys, starting from `pool`: iterates
`matcherStep` and collects the orders pushed to the order channel, in
emission order.
-/
def matcherRun {α : Type} (maps : List (List Key × α)) (pool : List Key) :
    List Key → List Key × List α
  | [] => (pool, [])
  | k :: ks =>
      let st := matcherStep maps pool k
      let rest := matcherRun maps st.1 ks
      (rest.1, st.2.toList ++ rest.2)

/-- The binding table the program installs at startup:
`maps.insert(Keymap::new("ZZ").unwrap(), Order::Exit)`. -/
def startupMaps : List (List Key × Order) := [(["Z", "Z"], Order.Exit)]

/-- The fixed supported set of the Key Translator contract (C5): the named
control keys backspace, tab, enter, escape, delete, plus every printable
ASCII character — space (`0x20`) through tilde (`0x7e`), covering all
letters, digits and punctuation, with space surfacing as the named token
`"SPACE"`. -/
def supportedCode : KeyCode → Prop
  | .Backspace => True
  | .Tab => True
  | .Enter => True
  | .Esc => True
  | .Delete => True
  | .Char c => 0x20 ≤ c.toNat ∧ c.toNat ≤ 0x7e
  | _ => False

/-! ### Helper lemmas -/

theorem defaultHashString_empty : defaultHashString "" = 3476900567878811119 := by
  decide

theorem eq_origin_some (m : Memo) (c : String) :
    m.eq_origin (some c) = (m.content_hash == defaultHashString c) := by
  simp [Memo.eq_origin, Memo.create_latest_hash, Memo.read_latest_content,
    Except.toOption]

theorem refresh_of_fresh (m : Memo) (c : String)
    (h : m.content_hash = defaultHashString c) : m.refresh (some c) = .ok m := by
  unfold Memo.refresh
  rw [eq_origin_some]
  simp [h]

theorem refresh_of_stale (m : Memo) (c : String)
    (h : m.content_hash ≠ defaultHashString c) :
    m.refresh (some c) =
      .ok { m with content_buffer := c, content_hash := defaultHashString c } := by
  unfold Memo.refresh
  rw [eq_origin_some]
  simp [h, Memo.read_latest_content, Memo.create_latest_hash]

/-! ### C1: Stash removal at a nonexistent position -/

/--
C1: the claim says `Stash::remove` at a position that does not exist fails
with a recoverable out-of-range error.  The code instead delegates straight
to `Vec::remove`, which panics — the process aborts and no `Error` value is
ever produced (`Stash::remove` returns `()` and has no error channel, unlike
the bounds-checked `Stash::edit` right next to it).  This theorem evaluates
the code on the whole out-of-range input class: the outcome is the abort.
-/
theorem stash_remove_out_of_range_aborts (s : Stash) (idx : Nat)
    (h : s.stash.length ≤ idx) : s.remove idx = .outOfBoundsAbort := by
  unfold Stash.remove
  rw [if_neg (by omega)]

/-- C1 witness: removing index 0 from an empty Stash aborts. -/
theorem stash_remove_out_of_range_aborts_witness :
    Stash.new.remove 0 = .outOfBoundsAbort :=
  stash_remove_out_of_range_aborts Stash.new 0 (by decide)

/-! ### C6: construction for a brand-new file -/

/--
C6: a Memo built by `Memo::new` has an empty cached buffer and the
hard-coded digest constant; that constant is exactly the `DefaultHasher`
digest of empty content, so a first `refresh()` against a genuinely empty
file passes the freshness check and changes nothing.
-/
theorem memo_new_empty_fresh (p : String) :
    (Memo.new p).content_buffer = "" ∧
    (Memo.new p).content_hash = 3476900567878811119 ∧
    defaultHashString "" = 3476900567878811119 ∧
    (Memo.new p).refresh (some "") = .ok (Memo.new p) :=
  ⟨rfl, rfl, defaultHashString_empty,
    refresh_of_fresh _ _ defaultHashString_empty.symm⟩

/-! ### C7: refresh is idempotent -/

/--
C7: with the backing file unchanged between two `refresh()` calls, the
second call returns the Memo of the first call unchanged — buffer and
digest keep the values the first call established.
-/
theorem memo_refresh_idempotent (m m' : Memo) (file : Option String)
    (h : m.refresh file = .ok m') : m'.refresh file = .ok m' := by
  cases file with
  | none =>
      exfalso
      unfold Memo.refresh at h
      simp [Memo.eq_origin, Memo.create_latest_hash, Memo.read_latest_content,
        Except.toOption] at h
  | some c =>
      by_cases hf : m.content_hash = defaultHashString c
      · rw [refresh_of_fresh m c hf] at h
        cases h
        exact refresh_of_fresh m c hf
      · rw [refresh_of_stale m c hf] at h
        cases h
        exact refresh_of_fresh _ c rfl

/-- C7 witness: refreshing a fresh Memo against content `"a"` and then
refreshing the result again returns it unchanged. -/
theorem memo_refresh_idempotent_witness :
    (Memo.new "p").refresh (some "a") =
      .ok ⟨"p", "a", 8186225505942432243⟩ ∧
    (Memo.refresh ⟨"p", "a", 8186225505942432243⟩ (some "a")) =
      .ok ⟨"p", "a", 8186225505942432243⟩ := by
  have h1 : (Memo.new "p").refresh (some "a") =
      .ok ⟨"p", "a", 8186225505942432243⟩ := by
    rw [refresh_of_stale (Memo.new "p") "a" (by decide)]
    rfl
  exact ⟨h1, memo_refresh_idempotent _ _ _ h1⟩

/-! ### C8: refresh after an external edit -/

/--
C8: when the backing file was edited since the last validation (the cached
digest no longer matches the current content's digest) and the content is
stable during the call, a successful `refresh()` leaves the buffer equal to
the latest content and the digest equal to the hash of that content, which
re-establishes the invariant that the digest is the hash of the buffer.
-/
theorem memo_refresh_stale_update (m : Memo) (content : String)
    (hstale : m.content_hash ≠ defaultHashString content) :
    ∃ m', m.refresh (some content) = .ok m' ∧
      m'.content_buffer = content ∧
      m'.content_hash = defaultHashString content ∧
      m'.content_hash = defaultHashString m'.content_buffer :=
  ⟨⟨m.original_path, content, defaultHashString content⟩,
    refresh_of_stale m content hstale, rfl, rfl, rfl⟩

/-- C8 witness: a brand-new Memo refreshed against content `"a"`. -/
theorem memo_refresh_stale_update_witness :
    ∃ m', (Memo.new "p").refresh (some "a") = .ok m' ∧
      m'.content_buffer = "a" ∧
      m'.content_hash = defaultHashString "a" ∧
      m'.content_hash = defaultHashString m'.content_buffer :=
  memo_refresh_stale_update (Memo.new "p") "a" (by decide)

/-! ### C9: unreadable file -/

/--
C9: for a Memo whose backing file cannot be read, `eq_origin` returns
`false` (the I/O failure is indistinguishable from staleness — no error
surfaces from the check), and the following `refresh()` then propagates the
read error produced by its re-read step.
-/
theorem memo_unreadable_stale_then_error (m : Memo) :
    m.eq_origin none = false ∧
    m.refresh none = .error (Error.with_cause
      ("A file '" ++ m.original_path ++ "' reading failed") "io error") := by
  constructor
  · simp [Memo.eq_origin, Memo.create_latest_hash, Memo.read_latest_content,
      Except.toOption]
  · unfold Memo.refresh
    simp [Memo.eq_origin, Memo.create_latest_hash, Memo.read_latest_content,
      Except.toOption]

/-! ### Matcher helper lemmas -/

theorem matcherStep_eq {α : Type} (maps : List (List Key × α))
    (pool : List Key) (k : Key) :
    matcherStep maps pool k =
      match lookupMap maps (pool ++ [k]) with
      | some matched => ([], some matched)
      | none =>
          if maps.any (fun e =>
              decide ((pool ++ [k]).length < e.1.length) &&
                (e.1.take (pool ++ [k]).length == pool ++ [k])) then
            (pool ++ [k], none)
          else ([], none) := rfl

theorem matcherStep_exact {α : Type} (maps : List (List Key × α))
    (pool : List Key) (k : Key) (o : α)
    (h : lookupMap maps (pool ++ [k]) = some o) :
    matcherStep maps pool k = ([], some o) := by
  rw [matcherStep_eq, h]

theorem matcherStep_retain {α : Type} (maps : List (List Key × α))
    (pool : List Key) (k : Key)
    (hnone : lookupMap maps (pool ++ [k]) = none)
    (hany : (maps.any fun e =>
      decide ((pool ++ [k]).length < e.1.length) &&
        (e.1.take (pool ++ [k]).length == pool ++ [k])) = true) :
    matcherStep maps pool k = (pool ++ [k], none) := by
  rw [matcherStep_eq, hnone]
  simp only [hany, if_true]

theorem matcherStep_clear {α : Type} (maps : List (List Key × α))
    (pool : List Key) (k : Key)
    (hnone : lookupMap maps (pool ++ [k]) = none)
    (hany : (maps.any fun e =>
      decide ((pool ++ [k]).length < e.1.length) &&
        (e.1.take (pool ++ [k]).length == pool ++ [k])) = false) :
    matcherStep maps pool k = ([], none) := by
  rw [matcherStep_eq, hnone]
  simp only [hany, Bool.false_eq_true, if_false]

theorem lookupMap_mem {α : Type} {maps : List (List Key × α)} {km : List Key}
    {o : α} (h : lookupMap maps km = some o) : (km, o) ∈ maps := by
  unfold lookupMap at h
  cases hf : maps.find? (fun e => e.1 == km) with
  | none => rw [hf] at h; exact Option.noConfusion h
  | some e =>
      rw [hf] at h
      simp only [Option.map_some'] at h
      have hp := List.find?_some hf
      have hm := List.mem_of_find?_eq_some hf
      have h1 : e.1 = km := by simpa using hp
      have he : e = (km, o) := by
        cases e
        simp only [Prod.mk.injEq]
        exact ⟨h1, by simpa using h⟩
      rwa [he] at hm

theorem matcherStep_viable {α : Type} (maps : List (List Key × α))
    (pool : List Key) (k : Key) (e : List Key × α)
    (hnone : lookupMap maps (pool ++ [k]) = none) (hmem : e ∈ maps)
    (hlen : (pool ++ [k]).length < e.1.length)
    (htake : e.1.take (pool ++ [k]).length = pool ++ [k]) :
    matcherStep maps pool k = (pool ++ [k], none) := by
  refine matcherStep_retain maps pool k hnone ?_
  rw [List.any_eq_true]
  refine ⟨e, hmem, ?_⟩
  simp only [Bool.and_eq_true, decide_eq_true_eq, beq_iff_eq]
  exact ⟨hlen, htake⟩

theorem matcherStep_dead {α : Type} (maps : List (List Key × α))
    (pool : List Key) (k : Key)
    (hnone : lookupMap maps (pool ++ [k]) = none)
    (hnov : ∀ e ∈ maps, ¬((pool ++ [k]).length < e.1.length ∧
      e.1.take (pool ++ [k]).length = pool ++ [k])) :
    matcherStep maps pool k = ([], none) := by
  refine matcherStep_clear maps pool k hnone ?_
  rw [Bool.eq_false_iff]
  intro hc
  rw [List.any_eq_true] at hc
  obtain ⟨e, hmem, hp⟩ := hc
  simp only [Bool.and_eq_true, decide_eq_true_eq, beq_iff_eq] at hp
  exact hnov e hmem hp

theorem matcherRun_cons {α : Type} (maps : List (List Key × α))
    (pool : List Key) (k : Key) (ks : List Key) :
    matcherRun maps pool (k :: ks) =
      ((matcherRun maps (matcherStep maps pool k).1 ks).1,
        (matcherStep maps pool k).2.toList ++
          (matcherRun maps (matcherStep maps pool k).1 ks).2) := rfl

/--
Feeding the keys of a bound keymap `km`, none of whose nonempty strict
prefixes is bound, completes the match: starting anywhere along `km` (pool
holding the keys fed so far), the run emits exactly the bound order and
clears the pool.
-/
theorem matcherRun_resolves {α : Type} (maps : List (List Key × α))
    (km : List Key) (o : α) (hk : lookupMap maps km = some o)
    (hpre : ∀ i, i < km.length → 0 < i → lookupMap maps (km.take i) = none) :
    ∀ suf pre, pre ++ suf = km → suf ≠ [] →
      matcherRun maps pre suf = ([], [o]) := by
  intro suf
  induction suf with
  | nil => intro pre _ hne; exact absurd rfl hne
  | cons k suf ih =>
      intro pre happ _
      by_cases hsuf : suf = []
      · subst hsuf
        have hpk : pre ++ [k] = km := by simpa using happ
        rw [matcherRun_cons, matcherStep_exact maps pre k o (hpk ▸ hk)]
        simp [matcherRun]
      · have hlen : pre.length + 1 < km.length := by
          rw [← happ, List.length_append, List.length_cons]
          have : 0 < suf.length := List.length_pos.mpr hsuf
          omega
        have htake : km.take (pre.length + 1) = pre ++ [k] := by
          rw [← happ, show pre ++ k :: suf = (pre ++ [k]) ++ suf by simp]
          exact List.take_left' (by simp)
        have hnone : lookupMap maps (pre ++ [k]) = none := by
          rw [← htake]
          exact hpre _ hlen (by omega)
        have hmem : (km, o) ∈ maps := lookupMap_mem hk
        have hstep : matcherStep maps pre k = (pre ++ [k], none) := by
          refine matcherStep_viable maps pre k (km, o) hnone hmem ?_ ?_
          · simpa using hlen
          · simpa using htake
        rw [matcherRun_cons, hstep]
        have hrest := ih (pre ++ [k]) (by simpa using happ) hsuf
        rw [hrest]
        rfl

/--
If a bound keymap `A` is a strict prefix of `B`, no run started from a pool
whose nonempty prefixes are all unbound ever emits an order bound only to
`B`: the pool would have to pass through `A`, where the exact match fires
first and clears it.
-/
theorem matcherRun_no_shadowed_emit {α : Type} (maps : List (List Key × α))
    (A B : List Key) (a b : α)
    (hA : lookupMap maps A = some a)
    (htake : B.take A.length = A) (hlt : A.length < B.length) (hA0 : A ≠ [])
    (honly : ∀ e ∈ maps, e.2 = b → e.1 = B) :
    ∀ ks pool,
      (∀ i, 0 < i → i ≤ pool.length → lookupMap maps (pool.take i) = none) →
      b ∉ (matcherRun maps pool ks).2 := by
  intro ks
  induction ks with
  | nil => intro pool _; simp [matcherRun]
  | cons k ks ih =>
      intro pool hinv
      rw [matcherRun_cons]
      cases hl : lookupMap maps (pool ++ [k]) with
      | some o =>
          rw [matcherStep_exact maps pool k o hl]
          simp only [Option.toList_some, List.singleton_append, List.mem_cons]
          rintro (hbo | hrest)
          · subst hbo
            have hB : pool ++ [k] = B := honly _ (lookupMap_mem hl) rfl
            have hAle : A.length ≤ pool.length := by
              have hLB : (pool ++ [k]).length = B.length := by rw [hB]
              simp only [List.length_append, List.length_cons,
                List.length_nil] at hLB
              omega
            have hAt : pool.take A.length = A := by
              have h1 : (pool ++ [k]).take A.length = A := by
                rw [hB]; exact htake
              rwa [List.take_append_of_le_length hAle] at h1
            have hdead := hinv A.length (List.length_pos.mpr hA0) hAle
            rw [hAt, hA] at hdead
            exact Option.noConfusion hdead
          · exact ih [] (by intro i h1 h2; simp at h2; omega) hrest
      | none =>
          by_cases hv : ∃ e ∈ maps, (pool ++ [k]).length < e.1.length ∧
              e.1.take (pool ++ [k]).length = pool ++ [k]
          · obtain ⟨e, hmem, h1, h2⟩ := hv
            rw [matcherStep_viable maps pool k e hl hmem h1 h2]
            simp only [Option.toList_none, List.nil_append]
            refine ih (pool ++ [k]) ?_
            intro i hi hle
            rcases Nat.lt_or_ge i (pool.length + 1) with hlt' | hge
            · have hile : i ≤ pool.length := by omega
              rw [List.take_append_of_le_length hile]
              exact hinv i hi hile
            · have hieq : i = pool.length + 1 := by
                simp only [List.length_append, List.length_cons,
                  List.length_nil] at hle
                omega
              subst hieq
              rw [show pool.length + 1 = (pool ++ [k]).length by simp,
                List.take_length]
              exact hl
          · rw [matcherStep_dead maps pool k hl (by
              intro e hmem hc
              exact hv ⟨e, hmem, hc⟩)]
            simp only [Option.toList_none, List.nil_append]
            exact ih [] (by intro i h1 h2; simp at h2; omega)

/-! ### C2: feeding a bound keymap; abandoning a dead pool -/

/--
C2 counterexample: with both `["a"]` and `["a", "a"]` bound, feeding the
bound Keymap `["a", "a"]` from the empty Pending Sequence emits two Orders,
not exactly one — the exact match on the one-key prefix fires first, twice.
-/
theorem matcher_bound_prefix_double_emit :
    lookupMap [(["a"], Order.Exit), (["a", "a"], Order.Exit)] ["a", "a"]
        = some Order.Exit ∧
    (matcherRun [(["a"], Order.Exit), (["a", "a"], Order.Exit)] []
        ["a", "a"]).2.length = 2 ∧
    (matcherRun [(["a"], Order.Exit), (["a", "a"], Order.Exit)] []
        ["a", "a"]).2 ≠ [Order.Exit] := by
  decide

/--
C2 (amended: the fed bound Keymap must have no nonempty strict prefix that
is itself bound): feeding exactly that Keymap's keys from the empty Pending
Sequence emits exactly the one Order bound to it and leaves the Pending
Sequence empty; and feeding any Key that makes the Pending Sequence neither
an exact match nor a proper prefix of some bound Keymap clears it entirely
without emitting — the breaking Key is discarded, not re-evaluated as the
start of a new sequence.
-/
theorem matcher_feed_bound_keymap {α : Type} (maps : List (List Key × α))
    (km : List Key) (o : α) (hk : lookupMap maps km = some o) (h0 : km ≠ [])
    (hpre : ∀ i, i < km.length → 0 < i → lookupMap maps (km.take i) = none) :
    matcherRun maps [] km = ([], [o]) ∧
    ∀ (pool : List Key) (k : Key),
      lookupMap maps (pool ++ [k]) = none →
      (∀ e ∈ maps, ¬((pool ++ [k]).length < e.1.length ∧
        e.1.take (pool ++ [k]).length = pool ++ [k])) →
      matcherStep maps pool k = ([], none) := by
  constructor
  · exact matcherRun_resolves maps km o hk hpre km [] rfl h0
  · intro pool k hnone hnov
    exact matcherStep_dead maps pool k hnone hnov

/-- C2 witness: the program's own table (`ZZ` bound to `Exit`): feeding
`Z`, `Z` emits exactly one `Exit` and clears the pool, and feeding `q` on
pool `[Z]` clears the pool without emitting. -/
theorem matcher_feed_bound_keymap_witness :
    matcherRun startupMaps [] ["Z", "Z"] = ([], [Order.Exit]) ∧
    matcherStep startupMaps ["Z"] "q" = ([], none) := by
  obtain ⟨h1, h2⟩ := matcher_feed_bound_keymap startupMaps ["Z", "Z"]
    Order.Exit (by decide) (by decide) (by decide)
  exact ⟨h1, h2 ["Z"] "q" (by decide) (by decide)⟩

/-! ### C3: shortest-match priority and shadowed longer bindings -/

/--
C3 counterexample: bind `["a"] ↦ 0`, `["a", "b"] ↦ 1`, `["a", "b", "c"] ↦ 2`.
Keymap `["a", "b"]` (call it A, order 1) is a strict prefix of
`["a", "b", "c"]` (B), yet typing A's keys resolves to order 0 — the
one-key binding fires first — not to A's order, refuting "typing A's Keys
always resolves to A's Order" for every table with A a strict prefix of B.
-/
theorem matcher_shadowed_resolution_cex :
    lookupMap [(["a"], 0), (["a", "b"], 1), (["a", "b", "c"], 2)]
        ["a", "b"] = some 1 ∧
    lookupMap [(["a"], 0), (["a", "b"], 1), (["a", "b", "c"], 2)]
        ["a", "b", "c"] = some 2 ∧
    (["a", "b", "c"] : List Key).take 2 = ["a", "b"] ∧
    (matcherRun [(["a"], 0), (["a", "b"], 1), (["a", "b", "c"], 2)] []
        ["a", "b"]).2 = [0] ∧
    (matcherRun [(["a"], 0), (["a", "b"], 1), (["a", "b", "c"], 2)] []
        ["a", "b"]).2 ≠ [1] := by
  decide

/--
C3 (amended: "typing A's Keys always resolves to A's Order" additionally
needs no nonempty strict prefix of A to be bound): with bound Keymap A a
strict prefix of bound Keymap B, the exact-match lookup is evaluated before
the longer-prefix viability scan on every key; B's Order (an order bound
only to B) is never emitted on any input fed from the empty Pending
Sequence — B is unreachable; and typing A's Keys resolves to A's Order
when no nonempty strict prefix of A is itself bound.
-/
theorem matcher_shortest_match_priority {α : Type}
    (maps : List (List Key × α)) (A B : List Key) (a b : α)
    (hA : lookupMap maps A = some a) (hB : lookupMap maps B = some b)
    (htake : B.take A.length = A) (hlt : A.length < B.length) (hA0 : A ≠ [])
    (honly : ∀ e ∈ maps, e.2 = b → e.1 = B) :
    (∀ (pool : List Key) (k : Key) (o : α),
        lookupMap maps (pool ++ [k]) = some o →
        matcherStep maps pool k = ([], some o)) ∧
    (∀ ks : List Key, b ∉ (matcherRun maps [] ks).2) ∧
    ((∀ i, i < A.length → 0 < i → lookupMap maps (A.take i) = none) →
      matcherRun maps [] A = ([], [a])) := by
  refine ⟨fun pool k o h => matcherStep_exact maps pool k o h, ?_, ?_⟩
  · intro ks
    exact matcherRun_no_shadowed_emit maps A B a b hA htake hlt hA0 honly
      ks [] (by intro i h1 h2; simp at h2; omega)
  · intro hpre
    exact matcherRun_resolves maps A a hA hpre A [] rfl hA0

/-- C3 witness: table `[ZZ ↦ 0, ZZq ↦ 1]`: the exact match on `ZZ` fires,
order 1 is never emitted even when B's full key list is typed, and typing
`Z`, `Z` resolves to order 0. -/
theorem matcher_shortest_match_priority_witness :
    matcherStep [(["Z", "Z"], 0), (["Z", "Z", "q"], 1)] ["Z"] "Z"
        = ([], some 0) ∧
    (1 : Nat) ∉ (matcherRun [(["Z", "Z"], 0), (["Z", "Z", "q"], 1)] []
        ["Z", "Z", "q"]).2 ∧
    matcherRun [(["Z", "Z"], 0), (["Z", "Z", "q"], 1)] [] ["Z", "Z"]
        = ([], [0]) := by
  obtain ⟨h1, h2, h3⟩ := matcher_shortest_match_priority
    [(["Z", "Z"], 0), (["Z", "Z", "q"], 1)] ["Z", "Z"] ["Z", "Z", "q"] 0 1
    (by decide) (by decide) (by decide) (by decide) (by decide) (by decide)
  exact ⟨h1 ["Z"] "Z" 0 (by decide), h2 ["Z", "Z", "q"], h3 (by decide)⟩

/-! ### Translator helper lemmas -/

theorem char_toNat_inj {c d : Char} (h : c.toNat = d.toNat) : c = d :=
  Char.ext (UInt32.ext h)

theorem self_ne_smark (s : String) : s ≠ "s-" ++ s := by
  intro h
  have hl := congrArg String.length h
  rw [String.length_append, show ("s-" : String).length = 2 from rfl] at hl
  omega

theorem amark_ne_smark (s : String) : "a-" ++ s ≠ "s-" ++ s := by
  intro h
  have h2 := congrArg String.data h
  rw [String.data_append, String.data_append,
    show ("a-" : String).data = ['a', '-'] from rfl,
    show ("s-" : String).data = ['s', '-'] from rfl] at h2
  injection h2 with h3 _
  exact absurd h3 (by decide)

theorem cmark_ne_smark (s : String) : "c-" ++ s ≠ "s-" ++ s := by
  intro h
  have h2 := congrArg String.data h
  rw [String.data_append, String.data_append,
    show ("c-" : String).data = ['c', '-'] from rfl,
    show ("s-" : String).data = ['s', '-'] from rfl] at h2
  injection h2 with h3 _
  exact absurd h3 (by decide)

theorem translate_eq_of_base (code : KeyCode) (mods : KeyModifiers)
    (s : String) (h : baseToken code = some s) :
    translate_to_key ⟨code, mods⟩
      = some (bracketToken (applyModifier mods s)) := by
  unfold translate_to_key
  rw [h]

/-! ### C4: modifier marker priority -/

/--
C4: for every supported input (one whose key code has a base token), the
produced token is the base token with at most one modifier marker prefix —
`s-`, `a-` or `c-`, or none — chosen by the priority Shift > Alt > Control,
and a base token that is a single uppercase letter never receives the shift
marker.
-/
theorem translate_modifier_priority (code : KeyCode) (mods : KeyModifiers)
    (s : String) (h : baseToken code = some s) :
    translate_to_key ⟨code, mods⟩
        = some (bracketToken (applyModifier mods s)) ∧
    (applyModifier mods s = s ∨ applyModifier mods s = "s-" ++ s ∨
      applyModifier mods s = "a-" ++ s ∨
      applyModifier mods s = "c-" ++ s) ∧
    (isBigAlpha s = true → applyModifier mods s ≠ "s-" ++ s) ∧
    (isBigAlpha s = false → mods.shift = true →
      applyModifier mods s = "s-" ++ s) ∧
    ((isBigAlpha s = true ∨ mods.shift = false) → mods.alt = true →
      applyModifier mods s = "a-" ++ s) ∧
    ((isBigAlpha s = true ∨ mods.shift = false) → mods.alt = false →
      mods.control = true → applyModifier mods s = "c-" ++ s) ∧
    ((isBigAlpha s = true ∨ mods.shift = false) → mods.alt = false →
      mods.control = false → applyModifier mods s = s) := by
  constructor
  · exact translate_eq_of_base code mods s h
  · cases hba : isBigAlpha s <;> cases hs : mods.shift <;>
      cases ha : mods.alt <;> cases hc : mods.control <;>
      simp [applyModifier, hba, hs, ha, hc, self_ne_smark, amark_ne_smark,
        cmark_ne_smark]

/-- C4 witness: Shift+Alt on `A` — shift is skipped for the uppercase base
token and the single alt marker is applied instead. -/
theorem translate_modifier_priority_witness :
    translate_to_key ⟨.Char 'A', ⟨true, false, true⟩⟩ = some "<a-A>" ∧
    applyModifier ⟨true, false, true⟩ "A" ≠ "s-" ++ "A" := by
  obtain ⟨h1, _, h3, _⟩ := translate_modifier_priority (.Char 'A')
    ⟨true, false, true⟩ "A" (by decide)
  refine ⟨?_, h3 (by decide)⟩
  rw [h1]
  decide

/-! ### C5: the supported set of the Key Translator -/

/--
C5: `translate_to_key` returns `some` key exactly for key codes in the
fixed supported set (printable ASCII plus the named control keys) and
`none` for every key code outside it (arrows, function keys, …), whatever
the modifier set.
-/
theorem translate_supported_iff (code : KeyCode) (mods : KeyModifiers) :
    (∃ k, translate_to_key ⟨code, mods⟩ = some k) ↔ supportedCode code := by
  have hbase : (∃ k, translate_to_key ⟨code, mods⟩ = some k) ↔
      (∃ s, baseToken code = some s) := by
    constructor
    · rintro ⟨k, hk⟩
      unfold translate_to_key at hk
      cases hb : baseToken code with
      | none => rw [hb] at hk; exact Option.noConfusion hk
      | some s => exact ⟨s, rfl⟩
    · rintro ⟨s, hs⟩
      exact ⟨_, by unfold translate_to_key; rw [hs]⟩
  rw [hbase]
  cases code with
  | Char c =>
      simp only [baseToken, supportedCode]
      unfold charToken
      by_cases h1 : c = ' '
      · subst h1
        simp
      · rw [if_neg h1]
        by_cases h2 : c = '<'
        · subst h2
          simp
        · rw [if_neg h2]
          by_cases h3 : 0x21 ≤ c.toNat ∧ c.toNat ≤ 0x7e
          · rw [if_pos h3]
            obtain ⟨h31, h32⟩ := h3
            simp only [Option.some.injEq, exists_eq']
            exact iff_of_true trivial ⟨by omega, h32⟩
          · rw [if_neg h3]
            constructor
            · rintro ⟨s, hs⟩
              exact Option.noConfusion hs
            · rintro ⟨ha, hb⟩
              exfalso
              rcases Nat.lt_or_ge c.toNat 0x21 with hl | hg
              · have hsp : c.toNat = ' '.toNat := by
                  rw [show (' '.toNat : Nat) = 0x20 from rfl]
                  omega
                exact h1 (char_toNat_inj hsp)
              · exact h3 ⟨hg, hb⟩
  | Backspace => simp [baseToken, supportedCode]
  | Tab => simp [baseToken, supportedCode]
  | Enter => simp [baseToken, supportedCode]
  | Esc => simp [baseToken, supportedCode]
  | Delete => simp [baseToken, supportedCode]
  | Left => simp [baseToken, supportedCode]
  | Right => simp [baseToken, supportedCode]
  | Up => simp [baseToken, supportedCode]
  | Down => simp [baseToken, supportedCode]
  | Home => simp [baseToken, supportedCode]
  | End => simp [baseToken, supportedCode]
  | PageUp => simp [baseToken, supportedCode]
  | PageDown => simp [baseToken, supportedCode]
  | BackTab => simp [baseToken, supportedCode]
  | Insert => simp [baseToken, supportedCode]
  | F n => simp [baseToken, supportedCode]
  | Null => simp [baseToken, supportedCode]
  | CapsLock => simp [baseToken, supportedCode]
  | ScrollLock => simp [baseToken, supportedCode]
  | NumLock => simp [baseToken, supportedCode]
  | PrintScreen => simp [baseToken, supportedCode]
  | Pause => simp [baseToken, supportedCode]
  | Menu => simp [baseToken, supportedCode]
  | KeypadBegin => simp [baseToken, supportedCode]

/-! ### C10: the lt renaming -/

/--
C10: the Key Translator maps `<` with no modifiers to base token `"lt"`,
which the bracketing rule wraps as `"<lt>"` — different from the character
itself; every other printable ASCII character (letter, digit or
punctuation, `0x21`–`0x7e`; space is handled as the named control token
`"SPACE"`) maps, unmodified, to the bare character itself, so `<` is the
only one renamed.
-/
theorem translate_lt_only_renamed :
    translate_to_key ⟨.Char '<', KeyModifiers.none⟩ = some "<lt>" ∧
    ("<lt>" : String) ≠ String.singleton '<' ∧
    (∀ c : Char, 0x21 ≤ c.toNat → c.toNat ≤ 0x7e → c ≠ '<' →
      translate_to_key ⟨.Char c, KeyModifiers.none⟩
        = some (String.singleton c)) := by
  refine ⟨by decide, by decide, ?_⟩
  intro c h1 h2 hne
  have hsp : c ≠ ' ' := by
    intro h
    subst h
    exact absurd h1 (by decide)
  have hbase : baseToken (.Char c) = some (String.singleton c) := by
    simp only [baseToken]
    unfold charToken
    rw [if_neg hsp, if_neg hne, if_pos ⟨h1, h2⟩]
  rw [translate_eq_of_base _ _ _ hbase]
  have hmod : applyModifier KeyModifiers.none (String.singleton c)
      = String.singleton c := by
    simp [applyModifier, KeyModifiers.none]
  have hbr : bracketToken (String.singleton c) = String.singleton c := by
    simp [bracketToken, String.length_singleton]
  rw [hmod, hbr]

/-- C10 witness: `<` becomes `"<lt>"` while `a` stays `"a"`. -/
theorem translate_lt_only_renamed_witness :
    translate_to_key ⟨.Char '<', KeyModifiers.none⟩ = some "<lt>" ∧
    translate_to_key ⟨.Char 'a', KeyModifiers.none⟩ = some "a" := by
  obtain ⟨h1, _, h3⟩ := translate_lt_only_renamed
  refine ⟨h1, ?_⟩
  rw [h3 'a' (by decide) (by decide) (by decide)]
  rfl

end Memoleak
